import Mathlib

/-!
Verification of the agent orchestration core in `server/graph.js`.

The embedding models the JavaScript values flowing through the workflow as a
`Json` inductive (JS `undefined` is represented by `Option.none` at member
lookups and channel values), and models the semantics of the JS operations the
code performs on them: truthiness, member access (which throws `TypeError` on
`null`), member assignment (which throws on primitives in strict mode — the
file is an ES module), `Array.prototype.includes` with a string argument, and
`String.prototype.includes`.

The language model and the tools are external collaborators: each stage's model
response is abstracted by the value `JSON.parse(extractJson(content))` produced
from it (`none` when `JSON.parse` threw), and a tool invocation's raw result is
a parameter.  The graph wiring of `workflow` (START → planner → router →
(execute_tools → responder | responder) → END, with the `pastSteps` channel
concatenating updates and the other channels overwriting) is embedded as
`runWorkflow`, which also records the trace of stages that completed.
-/

namespace Jarvis

/-- JSON values, extended with the property list a JS array can carry
(assigning a named property to an array succeeds in JS; `JSON.parse` itself
only ever produces arrays with an empty property list). -/
inductive Json where
  | null : Json
  | bool : Bool → Json
  | num : Int → Json
  | str : String → Json
  | arr : List Json → List (String × Json) → Json
  | obj : List (String × Json) → Json

/-- The only exception the modelled code paths can raise. -/
inductive JsError where
  | typeError : JsError
deriving DecidableEq

/-- First binding of a key in an association list (JS objects have unique
keys, so first-match agrees with JS member lookup on `JSON.parse` output). -/
def lookupField : List (String × Json) → String → Option Json
  | [], _ => none
  | (k', v') :: rest, k => if k' = k then some v' else lookupField rest k

/-- Overwrite a key's binding (or append it), as JS property assignment does. -/
def setField : List (String × Json) → String → Json → List (String × Json)
  | [], k, v => [(k, v)]
  | (k', v') :: rest, k, v =>
      if k' = k then (k, v) :: rest else (k', v') :: setField rest k v

/-- JS member read `j[k]`: throws `TypeError` on `null`; `undefined` (`none`)
on primitives and missing keys. -/
def getMember : Json → String → Except JsError (Option Json)
  | Json.null, _ => Except.error JsError.typeError
  | Json.obj fs, k => Except.ok (lookupField fs k)
  | Json.arr _ ps, k => Except.ok (lookupField ps k)
  | _, _ => Except.ok none

/-- JS member write `j[k] = v`: throws `TypeError` on `null` and on
primitives (strict mode); succeeds on objects and arrays. -/
def setMember : Json → String → Json → Except JsError Json
  | Json.obj fs, k, v => Except.ok (Json.obj (setField fs k v))
  | Json.arr es ps, k, v => Except.ok (Json.arr es (setField ps k v))
  | _, _, _ => Except.error JsError.typeError

/-- JS truthiness of a (defined) value. -/
def jsTruthy : Json → Bool
  | Json.null => false
  | Json.bool b => b
  | Json.num n => n != 0
  | Json.str s => s != ""
  | Json.arr _ _ => true
  | Json.obj _ => true

/-! ### The `extractJson` helper (graph.js lines 16–19)

`str.match(/```json\n([\s\S]*?)\n```/)` returns the leftmost match: the first
occurrence of the literal opening fence, with the lazy group ending at the
first subsequent occurrence of the closing fence.  `extractJson` returns the
captured group when the regex matches and the input unchanged otherwise. -/

/-- Index of the first occurrence of `pat` as a contiguous sublist. -/
def firstOcc (pat : List Char) : List Char → Option Nat
  | [] => if pat.isPrefixOf ([] : List Char) then some 0 else none
  | c :: t =>
      if pat.isPrefixOf (c :: t) then some 0
      else (firstOcc pat t).map (fun n => n + 1)

/-- The opening fence of the code-block regex. -/
def fenceStr : String := "```json\n"

/-- The closing fence of the code-block regex. -/
def closeStr : String := "\n```"

/-- `extractJson` on the character list of the input.  The opening fence has
length 8, so the captured group starts 8 characters after its position. -/
def extractJsonL (s : List Char) : List Char :=
  match firstOcc fenceStr.data s with
  | none => s
  | some i =>
      match firstOcc closeStr.data (s.drop (i + 8)) with
      | none => s
      | some j => (s.drop (i + 8)).take j

/-- graph.js lines 16–19. -/
def extractJson (s : String) : String := String.mk (extractJsonL s.data)

/-! ### Router (graph.js lines 303–312) -/

/-- The two conditional-edge targets: `"responder"` and `"execute_tools"`. -/
inductive Route where
  | respond : Route
  | execute : Route
deriving DecidableEq

/-- `Array.prototype.includes("PLAN_COMPLETE")`: strict equality against a
string matches exactly the equal string elements. -/
def containsSentinel : List Json → Bool
  | [] => false
  | Json.str s :: rest =>
      if s = "PLAN_COMPLETE" then true else containsSentinel rest
  | _ :: rest => containsSentinel rest

/-- `String.prototype.includes`: substring containment. -/
def jsStrIncludes (s pat : String) : Bool := (firstOcc pat.data s.data).isSome

/-- graph.js lines 303–312: `!state.plan || state.plan.includes("PLAN_COMPLETE")`.
The plan channel holds `none` for `null`/`undefined`.  A falsy plan routes to
the responder without calling `includes`; calling `includes` on a truthy
number, boolean or object throws `TypeError`. -/
def router (plan : Option Json) : Except JsError Route :=
  match plan with
  | none => Except.ok Route.respond
  | some j =>
      if jsTruthy j then
        match j with
        | Json.str s =>
            Except.ok (if jsStrIncludes s "PLAN_COMPLETE" then Route.respond else Route.execute)
        | Json.arr es _ =>
            Except.ok (if containsSentinel es then Route.respond else Route.execute)
        | _ => Except.error JsError.typeError
      else
        Except.ok Route.respond

/-! ### Planner (graph.js lines 178–211) -/

/-- The completion sentinel plan `["PLAN_COMPLETE"]`. -/
def planComplete : Json := Json.arr [Json.str "PLAN_COMPLETE"] []

/-- graph.js lines 198–210: `parsed` is `JSON.parse(extractJson(content))`
for the model's response `content`, with `none` when `JSON.parse` threw.  The
member read `.plan` is inside the same `try`, so a `TypeError` on it (parsed
value `null`) is also caught; a parsed object without a `plan` key yields
`undefined` (`none`) without entering the `catch`. -/
def planner (parsed : Option Json) : Option Json :=
  match parsed with
  | none => some planComplete
  | some j =>
      match getMember j "plan" with
      | Except.error _ => some planComplete
      | Except.ok v => v

/-! ### Tool registry (graph.js lines 50–173)

The seven registered tool names.  The first entry is the `TavilySearch`
library tool, whose `name` field (`"tavily_search"`) is defined by the
`@langchain/tavily` package rather than in this repository. -/

def toolNames : List String :=
  ["tavily_search", "get_weather_forecast", "github_repo_search", "file_analyst",
   "wikipedia_search", "arxiv_search", "mdn_web_search"]

/-! ### Executor (graph.js lines 214–285) -/

/-- One `pastSteps` record.  `tool` is the raw `toolCall.tool` value (possibly
`undefined`); `tool_output` is a string on every error path but passes a
non-object tool result through unchanged. -/
structure PastStep where
  tool : Option Json
  tool_output : Json

/-- Result of one `executeTools` call: the returned `pastSteps` update and,
when a tool was actually invoked, its name and the exact input passed to
`invoke`. -/
structure ExecOutcome where
  pastSteps : List PastStep
  invoked : Option (String × Json)

/-- String conversion used by the template literal in the not-found message
(`String(x)`): joins array elements with commas (empty for `null` elements),
and renders plain objects as `[object Object]`. -/
def jsToStringVal : Json → String
  | Json.null => "null"
  | Json.bool b => if b then "true" else "false"
  | Json.num n => toString n
  | Json.str s => s
  | Json.obj _ => "[object Object]"
  | Json.arr es _ => jsJoinElems es
where
  /-- `Array.prototype.join(",")` with `String` on each element. -/
  jsJoinElems : List Json → String
  | [] => ""
  | [Json.null] => ""
  | [e] => jsToStringVal e
  | Json.null :: rest => "," ++ jsJoinElems rest
  | e :: rest => jsToStringVal e ++ "," ++ jsJoinElems rest

/-- `String(x)` on a possibly-undefined value. -/
def jsToString : Option Json → String
  | none => "undefined"
  | some j => jsToStringVal j

/-- `JSON.stringify(x, null, 2)` modelled up to whitespace (no theorem
inspects this text; string escaping is not modelled). -/
def jsonStringify : Json → String
  | Json.null => "null"
  | Json.bool b => if b then "true" else "false"
  | Json.num n => toString n
  | Json.str s => "\"" ++ s ++ "\""
  | Json.arr es _ => "[" ++ stringifyElems es ++ "]"
  | Json.obj fs => "\x7b" ++ stringifyFields fs ++ "\x7d"
where
  stringifyElems : List Json → String
  | [] => ""
  | [e] => jsonStringify e
  | e :: rest => jsonStringify e ++ "," ++ stringifyElems rest
  stringifyFields : List (String × Json) → String
  | [] => ""
  | [(k, v)] => "\"" ++ k ++ "\":" ++ jsonStringify v
  | (k, v) :: rest => "\"" ++ k ++ "\":" ++ jsonStringify v ++ "," ++ stringifyFields rest

/-- The executor's catch-branch output (graph.js line 242). -/
def invalidToolCallMsg : String :=
  "Error: The model generated an invalid tool call. Please try again."

/-- graph.js lines 276–280: objects and arrays are serialized, every other
value (including `null`) passes through unchanged. -/
def normalizeOutput : Json → Json
  | Json.obj fs => Json.str (jsonStringify (Json.obj fs))
  | Json.arr es ps => Json.str (jsonStringify (Json.arr es ps))
  | r => r

/-- graph.js lines 246–249: if `toolCall.tool === 'file_analyst' &&
state.filePath`, replace a falsy `toolCall.tool_input` with `\x7b\x7d` and then
assign `toolCall.tool_input.filePath = state.filePath`.  Reading
`toolCall.tool` throws when the parsed tool call is `null`, and the `filePath`
assignment throws when `tool_input` is a truthy primitive. -/
def injectFile (tc0 : Json) (fp : Option String) : Except JsError Json :=
  match getMember tc0 "tool" with
  | Except.error e => Except.error e
  | Except.ok t =>
      match t, fp with
      | some (Json.str s), some fpath =>
          if s = "file_analyst" ∧ fpath ≠ "" then
            match getMember tc0 "tool_input" with
            | Except.error e => Except.error e
            | Except.ok ti0 =>
                let ti1 := match ti0 with
                  | none => Json.obj []
                  | some v => if jsTruthy v then v else Json.obj []
                match setMember ti1 "filePath" (Json.str fpath) with
                | Except.error e => Except.error e
                | Except.ok ti2 => setMember tc0 "tool_input" ti2
          else Except.ok tc0
      | _, _ => Except.ok tc0

/-- graph.js lines 214–285.  `parsed` is `JSON.parse(extractJson(content))`
of the tool-call model response (`none` when `JSON.parse` threw — the `catch`
branch); `rawOut` is the external result of `toolToExecute.invoke`. -/
def executeTools (input : String) (fp : Option String)
    (parsed : Option Json) (rawOut : Json) : Except JsError ExecOutcome :=
  match parsed with
  | none =>
      Except.ok ⟨[⟨some (Json.str "error_handler"), Json.str invalidToolCallMsg⟩], none⟩
  | some tc0 =>
      match injectFile tc0 fp with
      | Except.error e => Except.error e
      | Except.ok tc =>
          match getMember tc "tool" with
          | Except.error e => Except.error e
          | Except.ok toolName =>
              match
                (match toolName with
                 | some (Json.str nm) => if nm ∈ toolNames then some nm else none
                 | _ => none) with
              | none =>
                  Except.ok ⟨[⟨(if jsTruthy (toolName.getD Json.null) then toolName
                                else some (Json.str "unknown_tool")),
                              Json.str ("Error: Tool '" ++ jsToString toolName ++
                                "' not found. Please select from the available tools.")⟩],
                             none⟩
              | some nm =>
                  match getMember tc "tool_input" with
                  | Except.error e => Except.error e
                  | Except.ok ti =>
                      let inputForTool :=
                        match ti with
                        | none => Json.obj [("query", Json.str input)]
                        | some v => if jsTruthy v then v else Json.obj [("query", Json.str input)]
                      Except.ok ⟨[⟨toolName, normalizeOutput rawOut⟩], some (nm, inputForTool)⟩

/-! ### The compiled workflow (graph.js lines 315–328)

`START → planner`; conditional edges from `planner` by `router`;
`execute_tools → responder`; `responder → END`. -/

/-- The run-state channels (graph.js lines 24–33).  `plan` and `response`
overwrite; `pastSteps` concatenates updates onto the existing list. -/
structure RunState where
  input : String
  filePath : Option String
  plan : Option Json
  pastSteps : List PastStep
  response : Option String

/-- The external inputs of one run: the parsed value of each model response
(`none` when `JSON.parse` threw on it) and the raw result of the one possible
tool invocation.  `responderText` is the responder model's reply. -/
structure RunParams where
  plannerParsed : Option Json
  execParsed : Option Json
  rawToolOutput : Json
  responderText : String

/-- The three graph nodes. -/
inductive Stage where
  | planner : Stage
  | executor : Stage
  | responder : Stage
deriving DecidableEq, BEq

/-- A finished (or aborted) run: the state after each completed stage, the
last state reached, and whether an uncaught exception aborted the run before
reaching END. -/
structure RunResult where
  trace : List (Stage × RunState)
  state : RunState
  fatal : Bool

/-- One invocation of the compiled graph on `(input, filePath)`. -/
def runWorkflow (input : String) (filePath : Option String) (p : RunParams) : RunResult :=
  let s0 : RunState := ⟨input, filePath, none, [], none⟩
  let planVal := planner p.plannerParsed
  let s1 : RunState := { s0 with plan := planVal }
  match router planVal with
  | Except.error _ => ⟨[(Stage.planner, s1)], s1, true⟩
  | Except.ok Route.respond =>
      let s2 := { s1 with response := some p.responderText }
      ⟨[(Stage.planner, s1), (Stage.responder, s2)], s2, false⟩
  | Except.ok Route.execute =>
      match executeTools input filePath p.execParsed p.rawToolOutput with
      | Except.error _ => ⟨[(Stage.planner, s1)], s1, true⟩
      | Except.ok o =>
          let s2 := { s1 with pastSteps := s1.pastSteps ++ o.pastSteps }
          let s3 := { s2 with response := some p.responderText }
          ⟨[(Stage.planner, s1), (Stage.executor, s2), (Stage.responder, s3)], s3, false⟩

/-! ## Helper lemmas -/

theorem firstOcc_iff (pat : List Char) :
    ∀ (s : List Char) (i : Nat),
      firstOcc pat s = some i ↔
        pat.isPrefixOf (s.drop i) = true ∧
          ∀ k, k < i → pat.isPrefixOf (s.drop k) = false := by
  intro s
  induction s with
  | nil =>
      intro i
      simp only [firstOcc, List.drop_nil]
      split
      · next hp =>
          constructor
          · intro h
            injection h with h
            subst h
            exact ⟨hp, fun k hk => absurd hk (Nat.not_lt_zero k)⟩
          · rintro ⟨-, hmin⟩
            rcases Nat.eq_zero_or_pos i with h0 | h0
            · subst h0; rfl
            · have := hmin 0 h0
              rw [hp] at this
              cases this
      · next hp =>
          constructor
          · intro h; cases h
          · rintro ⟨hpre, -⟩
            exact absurd hpre hp
  | cons c t ih =>
      intro i
      simp only [firstOcc]
      split
      · next hp =>
          constructor
          · intro h
            injection h with h
            subst h
            exact ⟨hp, fun k hk => absurd hk (Nat.not_lt_zero k)⟩
          · rintro ⟨-, hmin⟩
            rcases Nat.eq_zero_or_pos i with h0 | h0
            · subst h0; rfl
            · have := hmin 0 h0
              rw [List.drop_zero] at this
              rw [hp] at this
              cases this
      · next hp =>
          rw [Bool.not_eq_true] at hp
          constructor
          · intro h
            rcases Option.map_eq_some'.mp h with ⟨j, hj, hji⟩
            subst hji
            rcases (ih j).mp hj with ⟨hpre, hmin⟩
            refine ⟨by simpa using hpre, ?_⟩
            intro k hk
            cases k with
            | zero => simpa using hp
            | succ k' =>
                rw [List.drop_succ_cons]
                exact hmin k' (by omega)
          · rintro ⟨hpre, hmin⟩
            cases i with
            | zero =>
                rw [List.drop_zero, hp] at hpre
                cases hpre
            | succ i' =>
                have ht : firstOcc pat t = some i' := by
                  refine (ih i').mpr ⟨by simpa using hpre, ?_⟩
                  intro k hk
                  have := hmin (k + 1) (by omega)
                  rwa [List.drop_succ_cons] at this
                rw [ht]
                rfl

theorem firstOcc_none (pat : List Char) :
    ∀ (s : List Char), firstOcc pat s = none →
      ∀ k, pat.isPrefixOf (s.drop k) = false := by
  intro s
  induction s with
  | nil =>
      intro h k
      simp only [firstOcc] at h
      split at h
      · cases h
      · next hp =>
          rw [List.drop_nil]
          exact Bool.eq_false_iff.mpr hp
  | cons c t ih =>
      intro h k
      simp only [firstOcc] at h
      split at h
      · cases h
      · next hp =>
          cases k with
          | zero =>
              rw [List.drop_zero]
              exact Bool.eq_false_iff.mpr hp
          | succ k' =>
              rw [List.drop_succ_cons]
              exact ih (by simpa using h) k'

theorem closeStr_ne_nil : closeStr.data ≠ [] := by decide

/-- The captured group of a successful match contains no occurrence of the
closing fence at all: the match ends at the first one. -/
theorem no_close_in_capture (rest : List Char) (j : Nat)
    (hj : firstOcc closeStr.data rest = some j) :
    ∀ k, closeStr.data.isPrefixOf ((rest.take j).drop k) = false := by
  intro k
  rcases (firstOcc_iff _ _ _).mp hj with ⟨-, hmin⟩
  by_cases hk : k < j
  · -- an occurrence inside the capture would be an earlier occurrence in `rest`
    by_contra hcon
    rw [Bool.not_eq_false] at hcon
    have hpref : closeStr.data <+: (rest.take j).drop k :=
      List.isPrefixOf_iff_prefix.mp hcon
    have hsub : (rest.take j).drop k <+: rest.drop k := by
      rw [List.drop_take]
      exact List.take_prefix _ _
    have : closeStr.data.isPrefixOf (rest.drop k) = true :=
      List.isPrefixOf_iff_prefix.mpr (hpref.trans hsub)
    rw [hmin k hk] at this
    cases this
  · -- beyond the capture there is nothing left to match
    have hnil : (rest.take j).drop k = [] := by
      apply List.drop_eq_nil_of_le
      calc (rest.take j).length ≤ j := by
            rw [List.length_take]; omega
        _ ≤ k := by omega
    rw [hnil]
    rcases hcs : closeStr.data with _ | ⟨c, cs⟩
    · exact absurd hcs closeStr_ne_nil
    · rfl

theorem extractJsonL_none (s : List Char)
    (h1 : firstOcc fenceStr.data s = none) : extractJsonL s = s := by
  simp only [extractJsonL, h1]

theorem extractJsonL_some_none (s : List Char) (i : Nat)
    (h1 : firstOcc fenceStr.data s = some i)
    (h2 : firstOcc closeStr.data (s.drop (i + 8)) = none) : extractJsonL s = s := by
  simp only [extractJsonL, h1, h2]

theorem extractJsonL_some_some (s : List Char) (i j : Nat)
    (h1 : firstOcc fenceStr.data s = some i)
    (h2 : firstOcc closeStr.data (s.drop (i + 8)) = some j) :
    extractJsonL s = (s.drop (i + 8)).take j := by
  simp only [extractJsonL, h1, h2]

theorem extractJsonL_idem (s : List Char) :
    extractJsonL (extractJsonL s) = extractJsonL s := by
  cases h1 : firstOcc fenceStr.data s with
  | none =>
      have he := extractJsonL_none s h1
      rw [he]; exact he
  | some i =>
      cases h2 : firstOcc closeStr.data (s.drop (i + 8)) with
      | none =>
          have he := extractJsonL_some_none s i h1 h2
          rw [he]; exact he
      | some j =>
          have he := extractJsonL_some_some s i j h1 h2
          rw [he]
          have hno := no_close_in_capture (s.drop (i + 8)) j h2
          cases h3 : firstOcc fenceStr.data ((s.drop (i + 8)).take j) with
          | none => exact extractJsonL_none _ h3
          | some p =>
              cases h4 : firstOcc closeStr.data (((s.drop (i + 8)).take j).drop (p + 8)) with
              | none => exact extractJsonL_some_none _ p h3 h4
              | some q =>
                  exfalso
                  rcases (firstOcc_iff _ _ _).mp h4 with ⟨hpre, -⟩
                  rw [List.drop_drop] at hpre
                  rw [hno (p + 8 + q)] at hpre
                  cases hpre

theorem str_data_append (a b : String) : (a ++ b).data = a.data ++ b.data := rfl

theorem str_mk_data (s : String) : String.mk s.data = s := rfl

theorem fenceStr_length : fenceStr.data.length = 8 := by decide

/-- A successful match decomposes the input around the two fences. -/
theorem extractJsonL_decomp (s : List Char) (i j : Nat)
    (h1 : firstOcc fenceStr.data s = some i)
    (h2 : firstOcc closeStr.data (s.drop (i + 8)) = some j) :
    s = s.take i ++ fenceStr.data ++ (s.drop (i + 8)).take j ++ closeStr.data ++
        ((s.drop (i + 8)).drop (j + closeStr.data.length)) := by
  rcases (firstOcc_iff _ _ _).mp h1 with ⟨hpre1, -⟩
  rcases (firstOcc_iff _ _ _).mp h2 with ⟨hpre2, -⟩
  rcases List.isPrefixOf_iff_prefix.mp hpre1 with ⟨t1, ht1⟩
  rcases List.isPrefixOf_iff_prefix.mp hpre2 with ⟨t2, ht2⟩
  have hdropi : s.drop i = fenceStr.data ++ t1 := ht1.symm
  have ht1' : t1 = s.drop (i + 8) := by
    have h := congrArg (List.drop fenceStr.data.length) hdropi
    rw [List.drop_drop, List.drop_left, fenceStr_length] at h
    exact h.symm
  have hdropj : (s.drop (i + 8)).drop j = closeStr.data ++ t2 := ht2.symm
  have ht2' : t2 = (s.drop (i + 8)).drop (j + closeStr.data.length) := by
    have h := congrArg (List.drop closeStr.data.length) hdropj
    rw [List.drop_drop, List.drop_left] at h
    exact h.symm
  calc s = s.take i ++ s.drop i := (List.take_append_drop i s).symm
    _ = s.take i ++ (fenceStr.data ++ s.drop (i + 8)) := by rw [hdropi, ht1']
    _ = s.take i ++ (fenceStr.data ++
          ((s.drop (i + 8)).take j ++ (s.drop (i + 8)).drop j)) := by
            rw [List.take_append_drop]
    _ = s.take i ++ fenceStr.data ++ (s.drop (i + 8)).take j ++ closeStr.data ++
          ((s.drop (i + 8)).drop (j + closeStr.data.length)) := by
            rw [hdropj, ht2']
            simp [List.append_assoc]

/-- The list-level content of C3's positive case: with the opening fence first
occurring after `pre` and the closing fence not occurring inside `mid`, the
captured group is exactly `mid`. -/
theorem extractJsonL_wrapped (pre mid post : List Char)
    (h1 : ∀ k, k < pre.length →
        fenceStr.data.isPrefixOf
          ((pre ++ fenceStr.data ++ mid ++ closeStr.data ++ post).drop k) = false)
    (h2 : ∀ k, k < mid.length →
        closeStr.data.isPrefixOf ((mid ++ closeStr.data ++ post).drop k) = false) :
    extractJsonL (pre ++ fenceStr.data ++ mid ++ closeStr.data ++ post) = mid := by
  have hassoc : pre ++ fenceStr.data ++ mid ++ closeStr.data ++ post =
      pre ++ (fenceStr.data ++ (mid ++ (closeStr.data ++ post))) := by
    simp [List.append_assoc]
  have hdrop1 : (pre ++ fenceStr.data ++ mid ++ closeStr.data ++ post).drop pre.length =
      fenceStr.data ++ (mid ++ (closeStr.data ++ post)) := by
    rw [hassoc, List.drop_left]
  have hfo : firstOcc fenceStr.data (pre ++ fenceStr.data ++ mid ++ closeStr.data ++ post) =
      some pre.length := by
    refine (firstOcc_iff _ _ _).mpr ⟨?_, h1⟩
    rw [hdrop1]
    exact List.isPrefixOf_iff_prefix.mpr (List.prefix_append _ _)
  have hdrop2 : (pre ++ fenceStr.data ++ mid ++ closeStr.data ++ post).drop (pre.length + 8) =
      mid ++ (closeStr.data ++ post) := by
    have : pre ++ fenceStr.data ++ mid ++ closeStr.data ++ post =
        (pre ++ fenceStr.data) ++ (mid ++ (closeStr.data ++ post)) := by
      simp [List.append_assoc]
    rw [this]
    have hlen : (pre ++ fenceStr.data).length = pre.length + 8 := by
      rw [List.length_append, fenceStr_length]
    rw [← hlen, List.drop_left]
  have hco : firstOcc closeStr.data (mid ++ (closeStr.data ++ post)) = some mid.length := by
    refine (firstOcc_iff _ _ _).mpr ⟨?_, ?_⟩
    · rw [List.drop_left]
      exact List.isPrefixOf_iff_prefix.mpr (List.prefix_append _ _)
    · intro k hk
      have := h2 k hk
      rwa [List.append_assoc] at this
  have hco' : firstOcc closeStr.data
      ((pre ++ fenceStr.data ++ mid ++ closeStr.data ++ post).drop (pre.length + 8)) =
      some mid.length := by
    rw [hdrop2]; exact hco
  rw [extractJsonL_some_some _ pre.length mid.length hfo hco', hdrop2, List.take_left]

theorem extractJsonL_unwrapped (s : List Char)
    (h : ¬ ∃ a b c : List Char, s = a ++ fenceStr.data ++ b ++ closeStr.data ++ c) :
    extractJsonL s = s := by
  cases h1 : firstOcc fenceStr.data s with
  | none => exact extractJsonL_none s h1
  | some i =>
      cases h2 : firstOcc closeStr.data (s.drop (i + 8)) with
      | none => exact extractJsonL_some_none s i h1 h2
      | some j =>
          exfalso
          exact h ⟨s.take i, (s.drop (i + 8)).take j,
            (s.drop (i + 8)).drop (j + closeStr.data.length),
            extractJsonL_decomp s i j h1 h2⟩

/-- C3: `extractJson` returns the payload of a fenced `json` code block when
the wrapper is present (the block whose opening fence comes first, captured up
to the first closing fence), and returns the input unchanged when the input
does not contain an opening fence followed by a closing fence. -/
theorem extractJson_fenced_spec :
    (∀ pre mid post : String,
       (∀ k, k < pre.length →
          fenceStr.data.isPrefixOf
            ((pre ++ fenceStr ++ mid ++ closeStr ++ post).data.drop k) = false) →
       (∀ k, k < mid.length →
          closeStr.data.isPrefixOf ((mid ++ closeStr ++ post).data.drop k) = false) →
       extractJson (pre ++ fenceStr ++ mid ++ closeStr ++ post) = mid)
  ∧ (∀ s : String,
       (¬ ∃ a b c : List Char,
          s.data = a ++ fenceStr.data ++ b ++ closeStr.data ++ c) →
       extractJson s = s) := by
  constructor
  · intro pre mid post h1 h2
    have hdata : (pre ++ fenceStr ++ mid ++ closeStr ++ post).data =
        pre.data ++ fenceStr.data ++ mid.data ++ closeStr.data ++ post.data := by
      simp [str_data_append]
    unfold extractJson
    rw [hdata]
    rw [extractJsonL_wrapped pre.data mid.data post.data
      (by intro k hk; have := h1 k hk; rwa [hdata] at this)
      (by intro k hk
          have := h2 k hk
          rwa [str_data_append, str_data_append] at this)]
  · intro s h
    unfold extractJson
    rw [extractJsonL_unwrapped s.data h]

theorem extractJson_fenced_spec_witness :
    extractJson ("Answer: " ++ fenceStr ++ "payload" ++ closeStr ++ " tail") = "payload" :=
  extractJson_fenced_spec.1 "Answer: " "payload" " tail" (by decide) (by decide)

/-- C4: extraction is idempotent — a captured group never contains another
closing fence, so a second pass matches nothing and returns it unchanged. -/
theorem extractJson_idempotent (x : String) :
    extractJson (extractJson x) = extractJson x := by
  unfold extractJson
  rw [show (String.mk (extractJsonL x.data)).data = extractJsonL x.data from rfl]
  rw [extractJsonL_idem]

/-! ## Router claims -/

/-- C1 (counterexample): on an empty-list plan the router picks the executor,
not the responder — in JS `![]` is `false` and `[].includes(..)` is `false`,
so `\x7bplan: []\x7d` falls through to `"execute_tools"`. -/
theorem router_empty_plan_cex :
    router (some (Json.arr [] [])) = Except.ok Route.execute ∧
      Route.execute ≠ Route.respond :=
  ⟨rfl, by decide⟩

/-- C1 (amended): the router is a pure function of the plan value; a missing
(`null`/`undefined`) plan routes to the responder, an empty-list plan routes
to the executor, a sole-element `"PLAN_COMPLETE"` plan routes to the
responder, and any other single-string plan routes to the executor. -/
theorem router_plan_cases :
    router none = Except.ok Route.respond
  ∧ router (some (Json.arr [] [])) = Except.ok Route.execute
  ∧ router (some (Json.arr [Json.str "PLAN_COMPLETE"] [])) = Except.ok Route.respond
  ∧ (∀ s : String, s ≠ "PLAN_COMPLETE" →
       router (some (Json.arr [Json.str s] [])) = Except.ok Route.execute)
  ∧ (∀ p q : Option Json, p = q → router p = router q) := by
  refine ⟨rfl, rfl, by simp [router, containsSentinel, jsTruthy], ?_, ?_⟩
  · intro s hs
    simp [router, jsTruthy, containsSentinel, hs]
  · intro p q h
    rw [h]

theorem router_plan_cases_witness :
    router (some (Json.arr [Json.str "Use the weather tool"] [])) =
      Except.ok Route.execute :=
  router_plan_cases.2.2.2.1 "Use the weather tool" (by decide)

/-! ## Association-list lemmas for member access after assignment -/

theorem lookupField_setField_eq (fs : List (String × Json)) (k : String) (v : Json) :
    lookupField (setField fs k v) k = some v := by
  induction fs with
  | nil => simp [setField, lookupField]
  | cons hd tl ih =>
      obtain ⟨k', v'⟩ := hd
      by_cases hk : k' = k
      · subst hk
        simp [setField, lookupField]
      · simp [setField, lookupField, hk, ih]

theorem lookupField_setField_ne (fs : List (String × Json)) (k k' : String) (v : Json)
    (h : k' ≠ k) : lookupField (setField fs k v) k' = lookupField fs k' := by
  induction fs with
  | nil => simp [setField, lookupField, Ne.symm h]
  | cons hd tl ih =>
      obtain ⟨k₀, v₀⟩ := hd
      by_cases hk : k₀ = k
      · subst hk
        simp [setField, lookupField, Ne.symm h]
      · by_cases hk' : k₀ = k'
        · subst hk'
          simp [setField, lookupField, hk]
        · simp [setField, lookupField, hk, hk', ih]

theorem getMember_setMember_eq (j j' : Json) (k : String) (v : Json)
    (h : setMember j k v = Except.ok j') : getMember j' k = Except.ok (some v) := by
  cases j with
  | obj fs =>
      simp only [setMember] at h
      injection h with h
      subst h
      simp [getMember, lookupField_setField_eq]
  | arr es ps =>
      simp only [setMember] at h
      injection h with h
      subst h
      simp [getMember, lookupField_setField_eq]
  | null => cases h
  | bool b => cases h
  | num n => cases h
  | str s => cases h

theorem getMember_setMember_ne (j j' : Json) (k k' : String) (v : Json)
    (h : setMember j k v = Except.ok j') (hne : k' ≠ k) :
    getMember j' k' = getMember j k' := by
  cases j with
  | obj fs =>
      simp only [setMember] at h
      injection h with h
      subst h
      simp [getMember, lookupField_setField_ne _ _ _ _ hne]
  | arr es ps =>
      simp only [setMember] at h
      injection h with h
      subst h
      simp [getMember, lookupField_setField_ne _ _ _ _ hne]
  | null => cases h
  | bool b => cases h
  | num n => cases h
  | str s => cases h

theorem jsTruthy_setMember (j j' : Json) (k : String) (v : Json)
    (h : setMember j k v = Except.ok j') : jsTruthy j' = true := by
  cases j with
  | obj fs =>
      simp only [setMember] at h
      injection h with h
      subst h
      rfl
  | arr es ps =>
      simp only [setMember] at h
      injection h with h
      subst h
      rfl
  | null => cases h
  | bool b => cases h
  | num n => cases h
  | str s => cases h

/-- A value with a defined member is an object or an array. -/
theorem getMember_ok_some (j : Json) (k : String) (v : Json)
    (h : getMember j k = Except.ok (some v)) :
    (∃ fs, j = Json.obj fs) ∨ (∃ es ps, j = Json.arr es ps) := by
  cases j with
  | obj fs => exact Or.inl ⟨fs, rfl⟩
  | arr es ps => exact Or.inr ⟨es, ps, rfl⟩
  | null => cases h
  | bool b => simp [getMember] at h
  | num n => simp [getMember] at h
  | str s => simp [getMember] at h

theorem setMember_ok_of_member (j : Json) (k k' : String) (v v' : Json)
    (h : getMember j k = Except.ok (some v)) :
    ∃ j', setMember j k' v' = Except.ok j' := by
  rcases getMember_ok_some j k v h with ⟨fs, rfl⟩ | ⟨es, ps, rfl⟩
  · exact ⟨_, rfl⟩
  · exact ⟨_, rfl⟩

/-! ## Executor lemmas -/

theorem file_analyst_mem : ("file_analyst" : String) ∈ toolNames := by decide

/-- The file-injection step leaves the tool call untouched unless the tool is
the string `"file_analyst"` and the state's `filePath` is truthy. -/
theorem injectFile_skip (tc : Json) (fp : Option String) (t : Option Json)
    (ht : getMember tc "tool" = Except.ok t)
    (h : (∀ s, t = some (Json.str s) → s ≠ "file_analyst") ∨ fp = none ∨ fp = some "") :
    injectFile tc fp = Except.ok tc := by
  rcases t with _ | v
  · cases fp <;> simp [injectFile, ht]
  · rcases v with _ | b | n | s | ⟨es, ps⟩ | fs
    · cases fp <;> simp [injectFile, ht]
    · cases fp <;> simp [injectFile, ht]
    · cases fp <;> simp [injectFile, ht]
    · rcases fp with _ | fpath
      · simp [injectFile, ht]
      · rcases h with h | h | h
        · have hne : s ≠ "file_analyst" := h s rfl
          simp [injectFile, ht, hne]
        · cases h
        · injection h with h
          subst h
          simp [injectFile, ht]
    · cases fp <;> simp [injectFile, ht]
    · cases fp <;> simp [injectFile, ht]

/-- When the injection applies, it either throws (truthy primitive
`tool_input`) or rewrites `tool_input` to a truthy value whose `filePath`
member is the state's path. -/
theorem injectFile_inject (tc : Json) (fpath : String) (hfp : fpath ≠ "")
    (htool : getMember tc "tool" = Except.ok (some (Json.str "file_analyst"))) :
    (∃ e, injectFile tc (some fpath) = Except.error e) ∨
    (∃ ti2 tc', injectFile tc (some fpath) = Except.ok tc' ∧
       setMember tc "tool_input" ti2 = Except.ok tc' ∧
       getMember ti2 "filePath" = Except.ok (some (Json.str fpath)) ∧
       jsTruthy ti2 = true) := by
  cases hti : getMember tc "tool_input" with
  | error e =>
      refine Or.inl ⟨e, ?_⟩
      simp [injectFile, htool, hti, hfp]
  | ok ti0 =>
      cases ti0 with
      | none =>
          rcases setMember_ok_of_member tc "tool" "tool_input" _
              (Json.obj [("filePath", Json.str fpath)]) htool with ⟨tc', htc'⟩
          refine Or.inr ⟨Json.obj [("filePath", Json.str fpath)], tc', ?_, htc',
            by simp [getMember, lookupField], rfl⟩
          have hset1 : setMember (Json.obj []) "filePath" (Json.str fpath) =
              Except.ok (Json.obj [("filePath", Json.str fpath)]) := rfl
          simp [injectFile, htool, hti, hfp, hset1, htc']
      | some v =>
          cases v with
          | null =>
              rcases setMember_ok_of_member tc "tool" "tool_input" _
                  (Json.obj [("filePath", Json.str fpath)]) htool with ⟨tc', htc'⟩
              refine Or.inr ⟨Json.obj [("filePath", Json.str fpath)], tc', ?_, htc',
                by simp [getMember, lookupField], rfl⟩
              have hset1 : setMember (Json.obj []) "filePath" (Json.str fpath) =
                  Except.ok (Json.obj [("filePath", Json.str fpath)]) := rfl
              simp [injectFile, htool, hti, hfp, jsTruthy, hset1, htc']
          | bool b =>
              cases b with
              | false =>
                  rcases setMember_ok_of_member tc "tool" "tool_input" _
                      (Json.obj [("filePath", Json.str fpath)]) htool with ⟨tc', htc'⟩
                  refine Or.inr ⟨Json.obj [("filePath", Json.str fpath)], tc', ?_, htc',
                    by simp [getMember, lookupField], rfl⟩
                  have hset1 : setMember (Json.obj []) "filePath" (Json.str fpath) =
                      Except.ok (Json.obj [("filePath", Json.str fpath)]) := rfl
                  simp [injectFile, htool, hti, hfp, jsTruthy, hset1, htc']
              | true =>
                  refine Or.inl ⟨JsError.typeError, ?_⟩
                  simp [injectFile, htool, hti, hfp, setMember, jsTruthy]
          | num n =>
              cases htr : jsTruthy (Json.num n) with
              | false =>
                  rcases setMember_ok_of_member tc "tool" "tool_input" _
                      (Json.obj [("filePath", Json.str fpath)]) htool with ⟨tc', htc'⟩
                  refine Or.inr ⟨Json.obj [("filePath", Json.str fpath)], tc', ?_, htc',
                    by simp [getMember, lookupField], rfl⟩
                  have hset1 : setMember (Json.obj []) "filePath" (Json.str fpath) =
                      Except.ok (Json.obj [("filePath", Json.str fpath)]) := rfl
                  simp [injectFile, htool, hti, hfp, htr, hset1, htc']
              | true =>
                  refine Or.inl ⟨JsError.typeError, ?_⟩
                  simp [injectFile, htool, hti, hfp, setMember, htr]
          | str s =>
              cases htr : jsTruthy (Json.str s) with
              | false =>
                  rcases setMember_ok_of_member tc "tool" "tool_input" _
                      (Json.obj [("filePath", Json.str fpath)]) htool with ⟨tc', htc'⟩
                  refine Or.inr ⟨Json.obj [("filePath", Json.str fpath)], tc', ?_, htc',
                    by simp [getMember, lookupField], rfl⟩
                  have hset1 : setMember (Json.obj []) "filePath" (Json.str fpath) =
                      Except.ok (Json.obj [("filePath", Json.str fpath)]) := rfl
                  simp [injectFile, htool, hti, hfp, htr, hset1, htc']
              | true =>
                  refine Or.inl ⟨JsError.typeError, ?_⟩
                  simp [injectFile, htool, hti, hfp, setMember, htr]
          | arr es ps =>
              rcases setMember_ok_of_member tc "tool" "tool_input" _
                  (Json.arr es (setField ps "filePath" (Json.str fpath))) htool with ⟨tc', htc'⟩
              refine Or.inr ⟨Json.arr es (setField ps "filePath" (Json.str fpath)), tc', ?_, htc',
                by simp [getMember, lookupField_setField_eq], rfl⟩
              have hset1 : setMember (Json.arr es ps) "filePath" (Json.str fpath) =
                  Except.ok (Json.arr es (setField ps "filePath" (Json.str fpath))) := rfl
              simp [injectFile, htool, hti, hfp, jsTruthy, hset1, htc']
          | obj fs =>
              rcases setMember_ok_of_member tc "tool" "tool_input" _
                  (Json.obj (setField fs "filePath" (Json.str fpath))) htool with ⟨tc', htc'⟩
              refine Or.inr ⟨Json.obj (setField fs "filePath" (Json.str fpath)), tc', ?_, htc',
                by simp [getMember, lookupField_setField_eq], rfl⟩
              have hset1 : setMember (Json.obj fs) "filePath" (Json.str fpath) =
                  Except.ok (Json.obj (setField fs "filePath" (Json.str fpath))) := rfl
              simp [injectFile, htool, hti, hfp, jsTruthy, hset1, htc']

/-! ## Executor claims -/

/-- C5 (code evaluated at the failing inputs): a tool-call response parsing to
JSON `null` makes the executor throw an uncaught `TypeError` at
`toolCall.tool`, and a planner response that is a JSON object without a
`plan` key makes the planner return `undefined` rather than the completion
sentinel.  The intended fallbacks do fire when `JSON.parse` itself throws:
the planner substitutes the sentinel and the executor returns the
deterministic `error_handler` record. -/
theorem parse_failure_fallback_gap :
    executeTools "q" none (some Json.null) (Json.str "") = Except.error JsError.typeError
  ∧ planner (some (Json.obj [("steps", Json.arr [] [])])) = none
  ∧ planner none = some planComplete
  ∧ executeTools "q" none none (Json.str "") =
      Except.ok ⟨[⟨some (Json.str "error_handler"), Json.str invalidToolCallMsg⟩], none⟩ :=
  ⟨rfl, rfl, rfl, rfl⟩

/-- C6: a parsed tool call naming a tool outside the registry produces exactly
one `pastSteps` record whose output names the missing tool; nothing is
invoked and no exception is raised. -/
theorem executor_unknown_tool (input : String) (fp : Option String) (tc raw : Json)
    (nm : String)
    (htool : getMember tc "tool" = Except.ok (some (Json.str nm)))
    (hreg : nm ∉ toolNames) :
    executeTools input fp (some tc) raw =
      Except.ok ⟨[⟨some (if nm = "" then Json.str "unknown_tool" else Json.str nm),
                  Json.str ("Error: Tool '" ++ nm ++
                    "' not found. Please select from the available tools.")⟩],
                 none⟩ := by
  have hfa : nm ≠ "file_analyst" := by
    intro h
    subst h
    exact hreg file_analyst_mem
  have hskip : injectFile tc fp = Except.ok tc := by
    apply injectFile_skip tc fp _ htool
    refine Or.inl ?_
    intro s hs
    injection hs with hs
    injection hs with hs
    exact hs ▸ hfa
  by_cases hnm : nm = ""
  · subst hnm
    simp [executeTools, hskip, htool, hreg, jsToString, jsToStringVal, jsTruthy]
  · simp [executeTools, hskip, htool, hreg, hnm, jsToString, jsToStringVal, jsTruthy]

theorem executor_unknown_tool_witness :
    executeTools "q" none (some (Json.obj [("tool", Json.str "time_machine")])) (Json.str "")
      = Except.ok ⟨[⟨some (Json.str "time_machine"),
          Json.str ("Error: Tool '" ++ "time_machine" ++
            "' not found. Please select from the available tools.")⟩], none⟩ := by
  have h := executor_unknown_tool "q" none (Json.obj [("tool", Json.str "time_machine")])
    (Json.str "") "time_machine" rfl (by decide)
  simpa using h

/-- C7 (counterexample): a registered tool called with a present-but-incomplete
arguments object is invoked with that object unchanged — the original-query
fallback is not applied to incomplete arguments, only to absent (falsy)
ones. -/
theorem executor_incomplete_args_cex :
    executeTools "what is the weather in Paris" none
        (some (Json.obj [("tool", Json.str "get_weather_forecast"),
                         ("tool_input", Json.obj [])]))
        Json.null
      = Except.ok ⟨[⟨some (Json.str "get_weather_forecast"), Json.null⟩],
                   some ("get_weather_forecast", Json.obj [])⟩
  ∧ Json.obj [] ≠ Json.obj [("query", Json.str "what is the weather in Paris")] := by
  constructor
  · rfl
  · intro h
    injection h with h
    cases h

/-- C7 (amended): for a registered tool (outside the file-injection special
case), an absent or falsy `tool_input` is replaced by the fallback
`\x7bquery: original input\x7d` and the tool is still invoked; a truthy
`tool_input` — complete or not — is passed to the tool unchanged. -/
theorem executor_args_fallback (input : String) (fp : Option String) (tc raw : Json)
    (nm : String)
    (htool : getMember tc "tool" = Except.ok (some (Json.str nm)))
    (hreg : nm ∈ toolNames)
    (hni : nm ≠ "file_analyst" ∨ fp = none ∨ fp = some "")
    (ti : Option Json) (hti : getMember tc "tool_input" = Except.ok ti) :
    ((ti = none ∨ (∃ v, ti = some v ∧ jsTruthy v = false)) →
        executeTools input fp (some tc) raw =
          Except.ok ⟨[⟨some (Json.str nm), normalizeOutput raw⟩],
                     some (nm, Json.obj [("query", Json.str input)])⟩)
  ∧ (∀ v, ti = some v → jsTruthy v = true →
        executeTools input fp (some tc) raw =
          Except.ok ⟨[⟨some (Json.str nm), normalizeOutput raw⟩], some (nm, v)⟩) := by
  have hskip : injectFile tc fp = Except.ok tc := by
    apply injectFile_skip tc fp _ htool
    rcases hni with h | h | h
    · refine Or.inl ?_
      intro s hs
      injection hs with hs
      injection hs with hs
      exact hs ▸ h
    · exact Or.inr (Or.inl h)
    · exact Or.inr (Or.inr h)
  constructor
  · rintro (rfl | ⟨v, rfl, hv⟩)
    · simp [executeTools, hskip, htool, hti, hreg]
    · simp [executeTools, hskip, htool, hti, hreg, hv]
  · rintro v rfl htr
    simp [executeTools, hskip, htool, hti, hreg, htr]

theorem executor_args_fallback_witness :
    executeTools "search for lean tutorials" none
        (some (Json.obj [("tool", Json.str "wikipedia_search")])) (Json.str "out")
      = Except.ok ⟨[⟨some (Json.str "wikipedia_search"), normalizeOutput (Json.str "out")⟩],
                   some ("wikipedia_search",
                         Json.obj [("query", Json.str "search for lean tutorials")])⟩ :=
  (executor_args_fallback "search for lean tutorials" none
      (Json.obj [("tool", Json.str "wikipedia_search")]) (Json.str "out")
      "wikipedia_search" rfl (by decide) (Or.inl (by decide)) none rfl).1 (Or.inl rfl)

/-- C8: whenever the run-state has a truthy `filePath` and the parsed tool
call selects `file_analyst`, any invocation the executor performs passes
arguments whose `filePath` member is the run-state's path, regardless of the
`tool_input` the model supplied. -/
theorem executor_filepath_injection (input fpath : String) (tc raw : Json)
    (hfp : fpath ≠ "")
    (htool : getMember tc "tool" = Except.ok (some (Json.str "file_analyst"))) :
    ∀ o, executeTools input (some fpath) (some tc) raw = Except.ok o →
      o.invoked.map Prod.fst = some "file_analyst" ∧
      o.invoked.map (fun pr => getMember pr.2 "filePath") =
        some (Except.ok (some (Json.str fpath))) := by
  intro o ho
  rcases injectFile_inject tc fpath hfp htool with ⟨e, hie⟩ | ⟨ti2, tc', hio, hset, hget, htr⟩
  · simp [executeTools, hie] at ho
  · have htool' : getMember tc' "tool" = Except.ok (some (Json.str "file_analyst")) := by
      rw [getMember_setMember_ne tc tc' "tool_input" "tool" ti2 hset (by decide)]
      exact htool
    have hti' : getMember tc' "tool_input" = Except.ok (some ti2) :=
      getMember_setMember_eq tc tc' "tool_input" ti2 hset
    simp only [executeTools, hio] at ho
    simp only [htool'] at ho
    rw [if_pos file_analyst_mem] at ho
    simp only [hti', htr] at ho
    injection ho with ho
    subst ho
    exact ⟨rfl, by simp [hget]⟩

theorem executor_filepath_injection_witness :
    ((⟨[⟨some (Json.str "file_analyst"), Json.str "ans"⟩],
        some ("file_analyst",
          Json.obj [("filePath", Json.str "/uploads/f1"), ("query", Json.str "sum")])⟩ :
        ExecOutcome).invoked.map Prod.fst = some "file_analyst") ∧
    ((⟨[⟨some (Json.str "file_analyst"), Json.str "ans"⟩],
        some ("file_analyst",
          Json.obj [("filePath", Json.str "/uploads/f1"), ("query", Json.str "sum")])⟩ :
        ExecOutcome).invoked.map (fun pr => getMember pr.2 "filePath") =
      some (Except.ok (some (Json.str "/uploads/f1")))) :=
  executor_filepath_injection "sum" "/uploads/f1"
    (Json.obj [("tool", Json.str "file_analyst"),
               ("tool_input", Json.obj [("filePath", Json.str "hallucinated"),
                                        ("query", Json.str "sum")])])
    (Json.str "ans") (by decide) rfl _ rfl

/-- C10: with `filePath` set, `file_analyst` selected and no `tool_input`
supplied, the injection materialises `\x7bfilePath\x7d` before the
missing-arguments check, so the original-query fallback is skipped and the
tool is invoked with arguments holding only `filePath` and no `query`. -/
theorem executor_filepath_no_query (input fpath : String) (tc raw : Json)
    (hfp : fpath ≠ "")
    (htool : getMember tc "tool" = Except.ok (some (Json.str "file_analyst")))
    (hti : getMember tc "tool_input" = Except.ok none) :
    executeTools input (some fpath) (some tc) raw =
      Except.ok ⟨[⟨some (Json.str "file_analyst"), normalizeOutput raw⟩],
                 some ("file_analyst", Json.obj [("filePath", Json.str fpath)])⟩ := by
  rcases setMember_ok_of_member tc "tool" "tool_input" _
      (Json.obj [("filePath", Json.str fpath)]) htool with ⟨tc', htc'⟩
  have hio : injectFile tc (some fpath) = Except.ok tc' := by
    have hset1 : setMember (Json.obj []) "filePath" (Json.str fpath) =
        Except.ok (Json.obj [("filePath", Json.str fpath)]) := rfl
    simp [injectFile, htool, hti, hfp, hset1, htc']
  have htool' : getMember tc' "tool" = Except.ok (some (Json.str "file_analyst")) := by
    rw [getMember_setMember_ne tc tc' "tool_input" "tool" _ htc' (by decide)]
    exact htool
  have hti' : getMember tc' "tool_input" =
      Except.ok (some (Json.obj [("filePath", Json.str fpath)])) :=
    getMember_setMember_eq tc tc' "tool_input" _ htc'
  simp only [executeTools, hio]
  simp only [htool']
  rw [if_pos file_analyst_mem]
  simp only [hti']
  rfl

theorem executor_filepath_no_query_witness :
    executeTools "describe the file" (some "/uploads/f2")
        (some (Json.obj [("tool", Json.str "file_analyst")])) (Json.str "desc")
      = Except.ok ⟨[⟨some (Json.str "file_analyst"), normalizeOutput (Json.str "desc")⟩],
                   some ("file_analyst", Json.obj [("filePath", Json.str "/uploads/f2")])⟩ :=
  executor_filepath_no_query "describe the file" "/uploads/f2"
    (Json.obj [("tool", Json.str "file_analyst")]) (Json.str "desc") (by decide) rfl rfl

/-! ## Workflow claims -/

/-- Every non-throwing path of `executeTools` returns exactly one `pastSteps`
record. -/
theorem executeTools_ok_singleton (input : String) (fp : Option String)
    (parsed : Option Json) (raw : Json) (o : ExecOutcome)
    (h : executeTools input fp parsed raw = Except.ok o) : o.pastSteps.length = 1 := by
  unfold executeTools at h
  repeat' split at h
  all_goals first
    | exact Except.noConfusion h
    | (injection h with h2; subst h2; rfl)

/-- C2: in a run that completes (no uncaught exception), the final `pastSteps`
has length 0 when the router chose the responder and length 1 when it chose
the executor — never more — and after every completed stage the `pastSteps`
length equals the number of executor stages performed so far. -/
theorem pastSteps_counts_executor (input : String) (fp : Option String) (p : RunParams)
    (hc : (runWorkflow input fp p).fatal = false) :
    (router (planner p.plannerParsed) = Except.ok Route.respond →
        (runWorkflow input fp p).state.pastSteps.length = 0)
  ∧ (router (planner p.plannerParsed) = Except.ok Route.execute →
        (runWorkflow input fp p).state.pastSteps.length = 1)
  ∧ (runWorkflow input fp p).state.pastSteps.length ≤ 1
  ∧ (∀ n (h : n < (runWorkflow input fp p).trace.length),
      ((runWorkflow input fp p).trace.get ⟨n, h⟩).2.pastSteps.length =
        (((runWorkflow input fp p).trace.take (n + 1)).map Prod.fst).count Stage.executor) := by
  cases hr : router (planner p.plannerParsed) with
  | error e =>
      exfalso
      simp [runWorkflow, hr] at hc
  | ok r =>
      cases r with
      | respond =>
          refine ⟨fun _ => ?_, fun hx => ?_, ?_, ?_⟩
          · simp [runWorkflow, hr]
          · injection hx with hx
            cases hx
          · simp [runWorkflow, hr]
          · intro n h
            have hlen : (runWorkflow input fp p).trace.length = 2 := by
              simp [runWorkflow, hr]
            rw [hlen] at h
            interval_cases n <;> simp [runWorkflow, hr, List.count] <;> decide
      | execute =>
          cases he : executeTools input fp p.execParsed p.rawToolOutput with
          | error e =>
              exfalso
              simp [runWorkflow, hr, he] at hc
          | ok o =>
              have hone := executeTools_ok_singleton input fp p.execParsed p.rawToolOutput o he
              refine ⟨fun hx => ?_, fun _ => ?_, ?_, ?_⟩
              · injection hx with hx
                cases hx
              · simp [runWorkflow, hr, he, hone]
              · simp [runWorkflow, hr, he, hone]
              · intro n h
                have hlen : (runWorkflow input fp p).trace.length = 3 := by
                  simp [runWorkflow, hr, he]
                rw [hlen] at h
                interval_cases n <;> simp [runWorkflow, hr, he, hone, List.count] <;> decide

theorem pastSteps_counts_executor_witness :
    (runWorkflow "q" none ⟨none, none, Json.str "", "done"⟩).state.pastSteps.length = 0 :=
  (pastSteps_counts_executor "q" none ⟨none, none, Json.str "", "done"⟩ rfl).1 rfl

/-- C9: in every run that completes, the responder stage runs exactly once,
the first stage is the planner (so the responder never precedes it), and the
run terminates with the responder as the final stage before END. -/
theorem responder_exactly_once (input : String) (fp : Option String) (p : RunParams)
    (hc : (runWorkflow input fp p).fatal = false) :
    ((runWorkflow input fp p).trace.map Prod.fst).count Stage.responder = 1
  ∧ ((runWorkflow input fp p).trace.map Prod.fst).getLast? = some Stage.responder
  ∧ ((runWorkflow input fp p).trace.map Prod.fst).head? = some Stage.planner := by
  cases hr : router (planner p.plannerParsed) with
  | error e =>
      exfalso
      simp [runWorkflow, hr] at hc
  | ok r =>
      cases r with
      | respond =>
          have ht : (runWorkflow input fp p).trace.map Prod.fst =
              [Stage.planner, Stage.responder] := by
            simp [runWorkflow, hr]
          rw [ht]
          exact ⟨by decide, by decide, by decide⟩
      | execute =>
          cases he : executeTools input fp p.execParsed p.rawToolOutput with
          | error e =>
              exfalso
              simp [runWorkflow, hr, he] at hc
          | ok o =>
              have ht : (runWorkflow input fp p).trace.map Prod.fst =
                  [Stage.planner, Stage.executor, Stage.responder] := by
                simp [runWorkflow, hr, he]
              rw [ht]
              exact ⟨by decide, by decide, by decide⟩

theorem responder_exactly_once_witness :
    (((runWorkflow "hello" none ⟨none, none, Json.str "", "fin"⟩).trace.map
        Prod.fst).count Stage.responder = 1) :=
  (responder_exactly_once "hello" none ⟨none, none, Json.str "", "fin"⟩ rfl).1

end Jarvis
